import Mathlib

/-!
Shallow embedding of the grepdef search engine (src/lib.rs) and proofs of
the specification claims.

Modelling conventions:
* Rust strings and lines are `List Char`; raw file bytes are `List Nat`
  (one entry per byte).  All concrete inputs used in theorems are ASCII, so
  the byte list of a text is the list of its characters' code points.
* The `regex` crate patterns built by `get_regexp_for_query` are embedded as
  a small regex AST (`RE`) whose constructors mirror the syntactic pieces of
  the pattern strings in the source (`\b`, literal characters, `\s`,
  character classes, `*`, `+`, `?`, alternation).  `is_match` existence
  semantics is implemented by a backtracking matcher that enumerates every
  nondeterministic parse, so `isMatch r s = true` iff some substring of `s`
  matches `r`, exactly the semantics of `Regex::is_match`.
* Word characters for `\b` are modelled as ASCII alphanumerics plus `_`,
  and `\s` as ASCII whitespace, matching the regex crate's behaviour on the
  ASCII inputs considered here.
-/

/-- Word character, as used by the regex `\b` assertion (ASCII fragment). -/
def isWordChar (c : Char) : Bool := c.isAlphanum || c == '_'

/-- Whitespace, as matched by the regex class `\s` and `str::trim`
(ASCII fragment of Unicode White_Space). -/
def isSpaceChar (c : Char) : Bool :=
  c == ' ' || c == '\t' || c == '\n' || c == '\r' || c == '\x0b' || c == '\x0c'

/-- Word-character test on an optional character; `none` (no character,
i.e. start or end of the haystack) counts as non-word. -/
def isWordO : Option Char → Bool
  | none => false
  | some c => isWordChar c

/-- Zero-width word-boundary test between a previous character and a next
character, as in the regex `\b`. -/
def atBoundary (p nx : Option Char) : Bool := isWordO p != isWordO nx

/-- Regex AST covering exactly the constructs appearing in the pattern
strings built by `get_regexp_for_query`. -/
inductive RE where
  | eps : RE
  | cls : (Char → Bool) → RE
  | seq : RE → RE → RE
  | alt : RE → RE → RE
  | starCls : (Char → Bool) → RE
  | wb : RE

/-- A single literal character (regex `c`). -/
def RE.lit (c : Char) : RE := RE.cls (fun d => d == c)

/-- A literal string: the characters in sequence. -/
def litStr (s : List Char) : RE := s.foldr (fun c r => RE.seq (RE.lit c) r) RE.eps

/-- Regex `r?`. -/
def optRE (r : RE) : RE := RE.alt r RE.eps

/-- Regex `[c]+` for a character class `c`: one class character then any
number more. -/
def plusCls (f : Char → Bool) : RE := RE.seq (RE.cls f) (RE.starCls f)

/-- All states reachable by the regex `[f]*`: consume zero or more
characters satisfying `f`.  A state is (last consumed character, remaining
input). -/
def starStates (f : Char → Bool) (p : Option Char) (s : List Char) :
    List (Option Char × List Char) :=
  (p, s) :: (match s with
    | [] => []
    | c :: rest => if f c then starStates f (some c) rest else [])

/-- Backtracking matcher: all states (last consumed character, remaining
input) reachable by matching `r` at the start of `s`, where `p` is the
character immediately before `s` in the full haystack (`none` at the very
start). -/
def runRE : RE → Option Char → List Char → List (Option Char × List Char)
  | RE.eps, p, s => [(p, s)]
  | RE.cls _, _, [] => []
  | RE.cls f, _, c :: rest => if f c then [(some c, rest)] else []
  | RE.seq a b, p, s => (runRE a p s).flatMap (fun st => runRE b st.1 st.2)
  | RE.alt a b, p, s => runRE a p s ++ runRE b p s
  | RE.starCls f, p, s => starStates f p s
  | RE.wb, p, s => if atBoundary p s.head? then [(p, s)] else []

/-- Does `r` match starting exactly at position of `s`, or at any later
position?  `p` is the character just before `s`. -/
def searchFrom (r : RE) : Option Char → List Char → Bool
  | p, [] => !(runRE r p []).isEmpty
  | p, c :: rest => !(runRE r p (c :: rest)).isEmpty || searchFrom r (some c) rest

/-- Model of `Regex::is_match`: does `r` match anywhere in `s`? -/
def isMatch (r : RE) (s : List Char) : Bool := searchFrom r none s

/-! ## The query patterns built by `get_regexp_for_query` (src/lib.rs:304-312)

The JS/TS pattern string is
`(\b(function|var|let|const|class|interface|type)\s+Q\b`
`|\bQ\([^)]*\)\s*(:[^\x7b]+)?\x7b|\bQ:|@typedef\s*(\x7b[^\x7d]+\x7d)?\s*Q\b)`
and the PHP pattern string is
`\b(function|class|trait|interface|enum) Q\b`,
where `Q` stands for the raw query text spliced into the pattern.  Because
the query text is spliced in unescaped, its regex interpretation is passed
here as an explicit `RE` argument `qre` (equal to `litStr q` whenever the
query `q` contains no regex metacharacters). -/

/-- The supported file types (src/lib.rs `FileType`). -/
inductive FileType where
  | JS : FileType
  | PHP : FileType
deriving DecidableEq, Repr

/-- Keyword alternation `(function|var|let|const|class|interface|type)`. -/
def kwJS : RE :=
  RE.alt (litStr "function".toList) (RE.alt (litStr "var".toList)
    (RE.alt (litStr "let".toList) (RE.alt (litStr "const".toList)
      (RE.alt (litStr "class".toList) (RE.alt (litStr "interface".toList)
        (litStr "type".toList))))))

/-- Keyword alternation `(function|class|trait|interface|enum)`. -/
def kwPHP : RE :=
  RE.alt (litStr "function".toList) (RE.alt (litStr "class".toList)
    (RE.alt (litStr "trait".toList) (RE.alt (litStr "interface".toList)
      (litStr "enum".toList))))

/-- JS alternative 1: `\b(function|var|let|const|class|interface|type)\s+Q\b`. -/
def jsAlt1 (qre : RE) : RE :=
  RE.seq RE.wb (RE.seq kwJS (RE.seq (plusCls isSpaceChar) (RE.seq qre RE.wb)))

/-- JS alternative 2: `\bQ\([^)]*\)\s*(:[^\x7b]+)?\x7b`. -/
def jsAlt2 (qre : RE) : RE :=
  RE.seq RE.wb (RE.seq qre (RE.seq (RE.lit '(')
    (RE.seq (RE.starCls (fun c => !(c == ')')))
      (RE.seq (RE.lit ')') (RE.seq (RE.starCls isSpaceChar)
        (RE.seq (optRE (RE.seq (RE.lit ':') (plusCls (fun c => !(c == '\x7b')))))
          (RE.lit '\x7b')))))))

/-- JS alternative 3: `\bQ:`. -/
def jsAlt3 (qre : RE) : RE := RE.seq RE.wb (RE.seq qre (RE.lit ':'))

/-- JS alternative 4: `@typedef\s*(\x7b[^\x7d]+\x7d)?\s*Q\b`. -/
def jsAlt4 (qre : RE) : RE :=
  RE.seq (litStr "@typedef".toList) (RE.seq (RE.starCls isSpaceChar)
    (RE.seq (optRE (RE.seq (RE.lit '\x7b')
        (RE.seq (plusCls (fun c => !(c == '\x7d'))) (RE.lit '\x7d'))))
      (RE.seq (RE.starCls isSpaceChar) (RE.seq qre RE.wb))))

/-- PHP pattern: `\b(function|class|trait|interface|enum) Q\b` (note the
literal space before the query). -/
def phpRE (qre : RE) : RE :=
  RE.seq RE.wb (RE.seq kwPHP (RE.seq (RE.lit ' ') (RE.seq qre RE.wb)))

/-- JS pattern: alternation of the four JS alternatives. -/
def jsRE (qre : RE) : RE :=
  RE.alt (jsAlt1 qre) (RE.alt (jsAlt2 qre) (RE.alt (jsAlt3 qre) (jsAlt4 qre)))

/-- Model of `get_regexp_for_query` (src/lib.rs:304-312): the compiled
pattern for a query's regex interpretation `qre` and a file type. -/
def get_regexp_for_query (qre : RE) : FileType → RE
  | FileType.JS => jsRE qre
  | FileType.PHP => phpRE qre

/-! ## Lines, trimming, and the per-line scan (src/lib.rs:560-597) -/

/-- The raw lines of a text, as produced by `BufRead::lines` before `\r`
stripping: split at each `'\n'`; an empty text has no lines and a trailing
newline does not produce a final empty line. -/
def rawLines : List Char → List (List Char)
  | [] => []
  | c :: s =>
    if c = '\n' then [] :: rawLines s
    else
      match rawLines s with
      | [] => [[c]]
      | l :: ls => (c :: l) :: ls

/-- Remove one trailing `'\r'` if present (the `CR` of a `CRLF` line
ending), as `BufRead::lines` does. -/
def stripCR (l : List Char) : List Char :=
  if l.getLast? = some '\r' then l.dropLast else l

/-- The lines of a text as `BufRead::lines` yields them. -/
def linesOf (s : List Char) : List (List Char) := (rawLines s).map stripCR

/-- Model of `str::trim`: remove leading and trailing whitespace. -/
def trim (l : List Char) : List Char :=
  ((l.dropWhile isSpaceChar).reverse.dropWhile isSpaceChar).reverse

/-- A search result (src/lib.rs `SearchResult`). -/
structure SearchResultM where
  file_path : String
  line_number : Option Nat
  text : List Char
deriving DecidableEq, Repr

/-- The per-line scan loop of `search_file_line_by_line`, carried out from
a given 0-based line counter: every line whose text matches `re` yields one
result carrying the 1-based line ordinal (when `withNo` is set) and the
trimmed line text. -/
def scanLinesFrom (re : RE) (path : String) (withNo : Bool) :
    Nat → List (List Char) → List SearchResultM
  | _, [] => []
  | i, l :: ls =>
    (if isMatch re l then
        [⟨path, if withNo then some (i + 1) else none, trim l⟩]
      else []) ++ scanLinesFrom re path withNo (i + 1) ls

/-- Model of `search_file_line_by_line` (src/lib.rs:560-597). -/
def search_file_line_by_line (re : RE) (path : String) (ls : List (List Char))
    (withNo : Bool) : List SearchResultM :=
  scanLinesFrom re path withNo 0 ls

/-! ## The byte-level streaming pre-scan `does_file_match_query`
(src/lib.rs:495-513)

A file's raw contents are a `List Nat` of byte values.  `File::read` into
the fixed 2048-byte array `buf` is modelled deterministically: each read
returns `min 2048 remaining` bytes, which overwrite the front of `buf` and
leave the rest of `buf` unchanged.  The loop is driven by a fuel parameter
for termination; since every iteration consumes at least one remaining
byte, any fuel of at least the remaining length gives the loop's true
behaviour. -/

/-- Chunk size of the pre-scan read buffer (`[0u8; 2048]`). -/
def chunkSize : Nat := 2048

/-- Is `needle` a prefix of `hay`? -/
def isPrefixN {α : Type} [BEq α] : List α → List α → Bool
  | [], _ => true
  | _ :: _, [] => false
  | a :: as, b :: bs => a == b && isPrefixN as bs

/-- Model of `memmem::Finder::find(..).is_some()`: does `needle` occur as a
contiguous subsequence of `hay`? -/
def hasSub {α : Type} [BEq α] (needle : List α) : List α → Bool
  | [] => isPrefixN needle []
  | b :: t => isPrefixN needle (b :: t) || hasSub needle t

/-- The suffix of `l` after its last `'\n'` byte (`0x0A`); `l` itself when
it has none.  This is `full.rsplit(|&b| b == b'\n').next()`. -/
def lastNlSuffix (l : List Nat) : List Nat :=
  (l.reverse.takeWhile (fun b => !(b == 10))).reverse

/-- One trim step of the pre-scan loop: when the rolling buffer holds a
newline, keep only what follows the last one. -/
def trimFull (full : List Nat) : List Nat :=
  if full.contains 10 then lastNlSuffix full else full

/-- The pre-scan loop of `does_file_match_query`: `rem` is the unread rest
of the file, `buf` the 2048-byte read array, `full` the rolling buffer.
Each iteration reads the next chunk into the front of `buf`, trims `full`
to its last line, appends the whole of `buf` (the full 2048 bytes, exactly
as `full.extend(buf)` does) and looks for the query bytes. -/
def matchLoopGo (query : List Nat) : Nat → List Nat → List Nat → List Nat → Bool
  | _, [], _, _ => false
  | 0, _ :: _, _, _ => false
  | fuel + 1, r :: rs, buf, full =>
    let rem := r :: rs
    let n := min chunkSize rem.length
    let buf' := rem.take n ++ buf.drop n
    let full' := trimFull full ++ buf'
    if hasSub query full' then true
    else matchLoopGo query fuel (rem.drop n) buf' full'

/-- Model of `does_file_match_query` (src/lib.rs:495-513) on the raw bytes
of a file. -/
def does_file_match_query (file query : List Nat) : Bool :=
  matchLoopGo query file.length file (List.replicate chunkSize 0) []

/-- Byte list of an ASCII text. -/
def bytesOf (s : List Char) : List Nat := s.map Char.toNat

/-! ## The whole-buffer regex pre-scan `does_file_match_regexp`
(src/lib.rs:486-493): read the whole file into a string; an empty read
means no match, otherwise apply the line pattern to the entire buffer. -/

/-- Model of `does_file_match_regexp` on a file that decodes as text. -/
def does_file_match_regexp (content : List Char) (re : RE) : Bool :=
  if content.length = 0 then false else isMatch re content

/-! ## `search_file` (src/lib.rs:521-558): the two-phase per-file scan -/

/-- The search-method knob (src/lib.rs `SearchMethod`); `PrescanRegex` is
the `clap`/`Default` default. -/
inductive SearchMethod where
  | prescanRegex : SearchMethod
  | prescanMemmem : SearchMethod
  | noPrescan : SearchMethod
deriving DecidableEq, Repr

/-- The phase-1 skip decision of `search_file`: the scanned expression of
the `if match config.search_method` in src/lib.rs:536-540.  `true` means
the file is skipped with no results. -/
def prescanSkips (m : SearchMethod) (re : RE) (query : List Char)
    (content : List Char) : Bool :=
  match m with
  | SearchMethod.prescanRegex => !does_file_match_regexp content re
  | SearchMethod.prescanMemmem =>
      !does_file_match_query (bytesOf content) (bytesOf query)
  | SearchMethod.noPrescan => false

/-- Model of `search_file` (src/lib.rs:521-558).  `file` is `none` when
`fs::File::open` fails, and `rewindOk` is false when the post-pre-scan
`file.rewind()` fails; in both cases the callback receives no results. -/
def search_file (m : SearchMethod) (re : RE) (query : List Char) (path : String)
    (file : Option (List Char)) (rewindOk : Bool) (withNo : Bool) :
    List SearchResultM :=
  match file with
  | none => []
  | some content =>
    if prescanSkips m re query content then []
    else if !rewindOk then []
    else search_file_line_by_line re path (linesOf content) withNo

/-! ## Configuration (src/lib.rs `Args`, `Config`, `Config::new`) -/

/-- Model of the `Args` struct (src/lib.rs:84-111).  Its fields are
exactly the CLI surface of this version of the program; in particular
there is no worker-count (`-j`/`--threads`) field. -/
structure Args where
  query : String
  file_path : Option (List String) := none
  file_type : Option String := none
  line_number : Bool := false
  no_color : Bool := false
  debug : Bool := false
  search_method : Option SearchMethod := none
deriving DecidableEq, Repr

/-- Model of the `Config` struct (src/lib.rs:133-142). -/
structure Config where
  query : String
  file_paths : List String
  file_type : FileType
  line_number : Bool
  debug : Bool
  no_color : Bool
  search_method : SearchMethod
deriving DecidableEq, Repr

/-- Model of `FileType::from_string` (src/lib.rs:187-202). -/
def FileType.from_string (s : String) : Except String FileType :=
  if s = "js" then Except.ok FileType.JS
  else if s = "ts" then Except.ok FileType.JS
  else if s = "jsx" then Except.ok FileType.JS
  else if s = "tsx" then Except.ok FileType.JS
  else if s = "javascript" then Except.ok FileType.JS
  else if s = "javascript.jsx" then Except.ok FileType.JS
  else if s = "javascriptreact" then Except.ok FileType.JS
  else if s = "typescript" then Except.ok FileType.JS
  else if s = "typescript.tsx" then Except.ok FileType.JS
  else if s = "typescriptreact" then Except.ok FileType.JS
  else if s = "php" then Except.ok FileType.PHP
  else Except.error "Invalid file type"

/-- Model of `Config::new` (src/lib.rs:145-169).  `guess` stands for the
result of `guess_file_type(&file_paths)`, which depends on the file
system and is passed in explicitly.  Note that no validation whatsoever is
applied to `args.query`. -/
def Config.new (args : Args) (guess : Except String FileType) :
    Except String Config :=
  let file_paths := args.file_path.getD ["."]
  match (match args.file_type with
         | some s => FileType.from_string s
         | none => guess) with
  | Except.error e => Except.error e
  | Except.ok ft =>
      Except.ok ⟨args.query, file_paths, ft, args.line_number, args.debug,
        args.no_color, args.search_method.getD SearchMethod.prescanRegex⟩

/-- The worker count of the thread pool created by `search`
(src/lib.rs:435: `ThreadPool::new(4)`).  It is a hard-coded literal and
does not read any field of the configuration. -/
def searchWorkerCount (_ : Config) : Nat := 4

/-! ## `search` (src/lib.rs:432-484): candidate enumeration and error
propagation -/

/-- One entry yielded by the directory walker inside `search`:
an enumeration error, a directory, or a file with its path (`none` when
the path is not valid UTF-8) and its contents (`none` when opening the
file later fails). -/
inductive WalkEntry where
  | walkErr : WalkEntry
  | dir : WalkEntry
  | file : Option String → Option (List Char) → WalkEntry

/-- The extensions accepted by `get_regexp_for_file_type`
(src/lib.rs:283-289): `\.(js|jsx|ts|tsx|mjs|cjs)$` resp. `\.php$`. -/
def fileTypeExts : FileType → List String
  | FileType.JS => [".js", ".jsx", ".ts", ".tsx", ".mjs", ".cjs"]
  | FileType.PHP => [".php"]

/-- Does the file-type extension pattern match a path?  The pattern is
anchored at the end of the path, so it matches exactly the paths ending in
one of the type's extensions. -/
def file_path_matches (ft : FileType) (p : String) : Bool :=
  (fileTypeExts ft).any (fun e => e.toList.isSuffixOf p.toList)

/-- Model of the enumeration-and-scan loop of `search`
(src/lib.rs:440-472): walk entries in order; an enumeration error or a
non-UTF8 path aborts the whole search with an error, directories and
non-matching paths are skipped, and every matching file contributes the
results of its `search_file` job.  (Worker scheduling permutes results
across files; the model keeps submission order, which is irrelevant to the
error-propagation claims proved about it.) -/
def searchModel (m : SearchMethod) (re : RE) (query : List Char) (ft : FileType)
    (withNo : Bool) : List WalkEntry → Except String (List SearchResultM)
  | [] => Except.ok []
  | WalkEntry.walkErr :: _ => Except.error "walk error"
  | WalkEntry.dir :: rest => searchModel m re query ft withNo rest
  | WalkEntry.file none _ :: _ => Except.error "Error getting string from path"
  | WalkEntry.file (some p) content :: rest =>
    if file_path_matches ft p then
      match searchModel m re query ft withNo rest with
      | Except.error e => Except.error e
      | Except.ok rs =>
          Except.ok (search_file m re query p content true withNo ++ rs)
    else searchModel m re query ft withNo rest

/-! ## Flanked occurrences (for the word-boundary claim) -/

/-- Does every occurrence of `q` in `line` have a word character
immediately on at least one side?  (This is the hypothesis "`q` occurs
only as a proper substring of a longer identifier".) -/
def onlyFlanked (q line : List Char) : Bool :=
  (List.range (line.length + 1)).all fun i =>
    !q.isPrefixOf (line.drop i) ||
      (isWordO (line.take i).getLast? || isWordO (line.drop (i + q.length)).head?)

/-- The character immediately before the position reached after consuming
`s`, when the character before `s` was `p`. -/
def prevAt : Option Char → List Char → Option Char
  | p, [] => p
  | _, c :: s => prevAt (some c) s

/-- The first 2048 bytes of the C9 example file. -/
def c9Chunk : List Nat := [88, 66] ++ List.replicate 2046 88

/-- The C9 example file: 2049 bytes, `81` last. -/
def c9File : List Nat := c9Chunk ++ [81]

/-- The C9 example query: bytes `81, 66`, not a substring of the file. -/
def c9Query : List Nat := [81, 66]

/-- The first 2048 bytes of the C2 example file. -/
def c2Chunk : List Nat := List.replicate 2046 88 ++ [65, 10]

/-- The C2 example file: `88 × 2046, 65, 10, 66`. -/
def c2File : List Nat := List.replicate 2046 88 ++ [65, 10, 66]

/-- The C2 example query bytes `65, 10, 66` (`A`, newline, `B`). -/
def c2Query : List Nat := [65, 10, 66]

/-- C1 counterexample: the three pre-scan strategies are not equivalent.
The query text `fo.` contains the regex metacharacter `.`; the regex
interpretation of the spliced pattern matches the line
`function fob() {`, but the raw query text does not occur literally in
the file, so the `PrescanMemmem` strategy skips the file while
`NoPrescan` (and `PrescanRegex`) report the matching line. -/
def qreFoDot : RE :=
  RE.seq (RE.lit 'f') (RE.seq (RE.lit 'o') (RE.cls (fun c => !(c == '\n'))))

/-! ## Helper lemmas about the per-line scan -/

theorem scanLinesFrom_mem_of_getElem (re : RE) (path : String)
    (ls : List (List Char)) :
    ∀ (start i : Nat) (line : List Char), ls[i]? = some line →
      isMatch re line = true →
      (SearchResultM.mk path (some (start + i + 1)) (trim line)) ∈
        scanLinesFrom re path true start ls := by
  induction ls with
  | nil => intro start i line h _; simp at h
  | cons l ls ih =>
    intro start i line h hm
    cases i with
    | zero =>
      simp only [List.getElem?_cons_zero, Option.some.injEq] at h
      subst h
      simp only [scanLinesFrom, hm, if_true, List.mem_append]
      exact Or.inl (by simp)
    | succ j =>
      simp only [List.getElem?_cons_succ] at h
      have := ih (start + 1) j line h hm
      simp only [scanLinesFrom, List.mem_append]
      right
      have harith : start + 1 + j + 1 = start + (j + 1) + 1 := by omega
      rw [harith] at this
      exact this

theorem scanLinesFrom_line_number_bounds (re : RE) (path : String) :
    ∀ (ls : List (List Char)) (start : Nat) (r : SearchResultM),
      r ∈ scanLinesFrom re path true start ls →
      ∃ k, r.line_number = some k ∧ start < k := by
  intro ls
  induction ls with
  | nil => intro start r h; simp [scanLinesFrom] at h
  | cons l ls ih =>
    intro start r h
    simp only [scanLinesFrom, List.mem_append] at h
    rcases h with h | h
    · rcases (by split at h <;> simp_all : r = ⟨path, some (start + 1), trim l⟩) with rfl
      exact ⟨start + 1, rfl, Nat.lt_succ_self start⟩
    · obtain ⟨k, hk, hlt⟩ := ih (start + 1) r h
      exact ⟨k, hk, by omega⟩

theorem scanLinesFrom_pairwise (re : RE) (path : String) :
    ∀ (ls : List (List Char)) (start : Nat),
      (scanLinesFrom re path true start ls).Pairwise
        (fun a b => a.line_number.getD 0 < b.line_number.getD 0) := by
  intro ls
  induction ls with
  | nil => intro start; simp [scanLinesFrom]
  | cons l ls ih =>
    intro start
    simp only [scanLinesFrom]
    rw [List.pairwise_append]
    refine ⟨?_, ih (start + 1), ?_⟩
    · split <;> simp
    · intro a ha b hb
      obtain ⟨k, hk, hlt⟩ := scanLinesFrom_line_number_bounds re path ls (start + 1) b hb
      have ha' : a = ⟨path, some (start + 1), trim l⟩ := by split at ha <;> simp_all
      subst ha'
      simp only [hk, Option.getD_some]
      omega

/-! ## Claim theorems: C3, C5, C6, C7, C8 -/

/-- C3: for every query `q`, file type, and file whose `i`-th line (0-based)
matches the compiled per-type definition pattern for `q`, the line-by-line
scan returns a `SearchResult` whose `text` is that line trimmed of leading
and trailing whitespace and whose `line_number` (line numbers enabled) is
the line's 1-based position `i + 1`. -/
theorem c3_matching_line_reported (q : List Char) (ft : FileType) (path : String)
    (ls : List (List Char)) (i : Nat) (line : List Char)
    (hline : ls[i]? = some line)
    (hm : isMatch (get_regexp_for_query (litStr q) ft) line = true) :
    (SearchResultM.mk path (some (i + 1)) (trim line)) ∈
      search_file_line_by_line (get_regexp_for_query (litStr q) ft) path ls true := by
  have := scanLinesFrom_mem_of_getElem (get_regexp_for_query (litStr q) ft) path
    ls 0 i line hline hm
  simpa [search_file_line_by_line] using this

/-- Witness for C3 at a concrete input: query `parseQuery`, type JS, a
three-line file whose second line is `  function parseQuery() {`. -/
theorem c3_matching_line_reported_witness :
    (SearchResultM.mk "a.js" (some 2) (trim "  function parseQuery() \x7b".toList)) ∈
      search_file_line_by_line
        (get_regexp_for_query (litStr "parseQuery".toList) FileType.JS) "a.js"
        ["// header".toList, "  function parseQuery() \x7b".toList, "x".toList]
        true :=
  c3_matching_line_reported "parseQuery".toList FileType.JS "a.js"
    ["// header".toList, "  function parseQuery() \x7b".toList, "x".toList]
    1 "  function parseQuery() \x7b".toList (by decide) (by decide)

/-- C5: a file that cannot be opened, and a file whose rewind after the
pre-scan fails, both contribute exactly the empty result list, for every
search method, pattern, query, and configuration; `search_file` returns
normally rather than failing. -/
theorem c5_per_file_failures_silent (m : SearchMethod) (re : RE)
    (query : List Char) (path : String) (withNo : Bool) :
    (∀ rewindOk, search_file m re query path none rewindOk withNo = []) ∧
      (∀ content, search_file m re query path (some content) false withNo = []) := by
  constructor
  · intro rewindOk; rfl
  · intro content
    simp only [search_file]
    split
    · rfl
    · rfl

/-- C6: during candidate enumeration, a directory-walk error or a
candidate path that is not valid UTF-8 anywhere in the walk makes the whole
search return an error: no partial result list is produced. -/
theorem c6_enumeration_errors_fatal (m : SearchMethod) (re : RE)
    (query : List Char) (ft : FileType) (withNo : Bool)
    (entries : List WalkEntry)
    (h : WalkEntry.walkErr ∈ entries ∨
      ∃ content, WalkEntry.file none content ∈ entries) :
    ∃ msg, searchModel m re query ft withNo entries = Except.error msg := by
  induction entries with
  | nil =>
    exfalso
    rcases h with h | ⟨c, h⟩ <;> simp at h
  | cons e rest ih =>
    cases e with
    | walkErr => exact ⟨"walk error", rfl⟩
    | dir =>
      refine ih ?_
      rcases h with h | ⟨c, h⟩
      · exact Or.inl (by simpa using h)
      · exact Or.inr ⟨c, by simpa using h⟩
    | file pOpt content =>
      cases pOpt with
      | none => exact ⟨"Error getting string from path", rfl⟩
      | some p =>
        have h' : WalkEntry.walkErr ∈ rest ∨
            ∃ c, WalkEntry.file none c ∈ rest := by
          rcases h with h | ⟨c, h⟩
          · exact Or.inl (by simpa using h)
          · rcases List.mem_cons.mp h with h | h
            · exact absurd h (by simp)
            · exact Or.inr ⟨c, h⟩
        obtain ⟨msg, hmsg⟩ := ih h'
        simp only [searchModel]
        split
        · rw [hmsg]; exact ⟨msg, rfl⟩
        · exact ⟨msg, hmsg⟩

/-- Witness for C6 at a concrete input: a walk containing one valid
matching file and one non-UTF8 path produces an error, not a partial
result list. -/
theorem c6_enumeration_errors_fatal_witness :
    ∃ msg,
      searchModel SearchMethod.noPrescan (jsRE (litStr "f".toList)) "f".toList
        FileType.JS true
        [WalkEntry.file (some "a.js") (some "f: 1".toList),
         WalkEntry.file none (some "f: 1".toList)]
      = Except.error msg :=
  c6_enumeration_errors_fatal SearchMethod.noPrescan (jsRE (litStr "f".toList))
    "f".toList FileType.JS true
    [WalkEntry.file (some "a.js") (some "f: 1".toList),
     WalkEntry.file none (some "f: 1".toList)]
    (Or.inr ⟨some "f: 1".toList, by simp⟩)

/-- C7 (code bug): the pool scanning the candidate files is created with
the literal worker count 4 for every configuration; the configuration has
no worker-count field and nothing in `Args` (src/lib.rs:84-111) accepts a
`-j`/`--threads` option, even though the crate's own integration tests set
`args.threads` and the spec lists `-j`/`--threads`. -/
theorem c7_worker_count_hardcoded (cfg : Config) : searchWorkerCount cfg = 4 := rfl

/-- C8: within a single file's results, line numbers are strictly
increasing (results appear in ascending file position), for every pattern
and line list, when line-number reporting is on. -/
theorem c8_results_ascending (re : RE) (path : String) (ls : List (List Char)) :
    (search_file_line_by_line re path ls true).Pairwise
      (fun a b => a.line_number.getD 0 < b.line_number.getD 0) :=
  scanLinesFrom_pairwise re path ls 0

/-! ## Substring lemmas for the byte-level pre-scan -/

theorem isPrefixN_iff {α : Type} [BEq α] [LawfulBEq α] (q : List α) :
    ∀ h : List α, isPrefixN q h = true ↔ ∃ v, h = q ++ v := by
  induction q with
  | nil => intro h; simp [isPrefixN]
  | cons a as ih =>
    intro h
    cases h with
    | nil => simp [isPrefixN]
    | cons b bs =>
      simp only [isPrefixN, Bool.and_eq_true, beq_iff_eq, ih bs]
      constructor
      · rintro ⟨rfl, v, rfl⟩; exact ⟨v, rfl⟩
      · rintro ⟨v, hv⟩
        rw [List.cons_append] at hv
        injection hv with h1 h2
        exact ⟨h1.symm, v, h2⟩

theorem hasSub_iff {α : Type} [BEq α] [LawfulBEq α] (q : List α) :
    ∀ h : List α, hasSub q h = true ↔ ∃ u v, h = u ++ q ++ v := by
  intro h
  induction h with
  | nil =>
    simp only [hasSub, isPrefixN_iff]
    constructor
    · rintro ⟨v, hv⟩
      exact ⟨[], v, by simpa using hv⟩
    · rintro ⟨u, v, huv⟩
      rcases List.append_eq_nil.mp huv.symm with ⟨h1, h2⟩
      rcases List.append_eq_nil.mp h1 with ⟨h3, h4⟩
      exact ⟨[], by simp [h4]⟩
  | cons b t ih =>
    simp only [hasSub, Bool.or_eq_true, isPrefixN_iff, ih]
    constructor
    · rintro (⟨v, hv⟩ | ⟨u, v, huv⟩)
      · exact ⟨[], v, by simpa using hv⟩
      · exact ⟨b :: u, v, by simp [huv]⟩
    · rintro ⟨u, v, huv⟩
      cases u with
      | nil => exact Or.inl ⟨v, by simpa using huv⟩
      | cons u0 us =>
        right
        rw [List.cons_append, List.cons_append] at huv
        injection huv with h1 h2
        exact ⟨us, v, by simp [h2]⟩

theorem hasSub_of_append {α : Type} [BEq α] [LawfulBEq α] (q u v : List α) :
    hasSub q (u ++ q ++ v) = true :=
  (hasSub_iff q (u ++ q ++ v)).mpr ⟨u, v, rfl⟩

theorem mem_of_getLast?_eq : ∀ (l : List Nat) (a : Nat), l.getLast? = some a → a ∈ l := by
  intro l
  induction l with
  | nil => intro a h; simp at h
  | cons x t ih =>
    intro a h
    cases t with
    | nil => simp only [List.getLast?_singleton, Option.some.injEq] at h; simp [h]
    | cons y ts =>
      rw [List.getLast?_cons_cons] at h
      exact List.mem_cons_of_mem x (ih a h)

/-! ## Unfolding equations for the pre-scan loop -/

theorem matchLoopGo_nil (query : List Nat) (fuel : Nat) (buf full : List Nat) :
    matchLoopGo query fuel [] buf full = false := by
  cases fuel <;> rfl

theorem matchLoopGo_cons (query : List Nat) (fuel : Nat) (r : Nat)
    (rs buf full : List Nat) :
    matchLoopGo query (fuel + 1) (r :: rs) buf full =
      (let rem := r :: rs
       let n := min chunkSize rem.length
       let buf' := rem.take n ++ buf.drop n
       let full' := trimFull full ++ buf'
       if hasSub query full' then true
       else matchLoopGo query fuel (rem.drop n) buf' full') := rfl

theorem matchLoopGo_ne_nil (query : List Nat) (fuel : Nat)
    (rem buf full : List Nat) (h : rem ≠ []) :
    matchLoopGo query (fuel + 1) rem buf full =
      (let n := min chunkSize rem.length
       let buf' := rem.take n ++ buf.drop n
       let full' := trimFull full ++ buf'
       if hasSub query full' then true
       else matchLoopGo query fuel (rem.drop n) buf' full') := by
  cases rem with
  | nil => exact absurd rfl h
  | cons r rs => rfl

/-! ## C9: the stale-buffer false positive of the streaming pre-scan

The loop appends the entire 2048-byte read array to the rolling buffer
after every read (`full.extend(buf)`), even when the read returned fewer
bytes, so bytes left in the array from the previous chunk are scanned as
if they followed the current data.  The concrete file below is 2049 bytes:
`88, 66, 88 × 2046, 81`.  Its second read returns the single byte `81`,
leaving bytes `66, 88, ...` of the first chunk in the array, so the
buffer is scanned containing `81, 66` — although the file never contains
`81` followed by `66`. -/

theorem c9Chunk_length : c9Chunk.length = 2048 := by
  rw [c9Chunk, List.length_append, List.length_replicate]
  rfl

theorem c9Chunk_mem (b : Nat) (hb : b ∈ c9Chunk) : b = 88 ∨ b = 66 := by
  rw [c9Chunk, List.mem_append, List.mem_cons, List.mem_cons] at hb
  rcases hb with (h | h | h) | h
  · exact Or.inl h
  · exact Or.inr h
  · exact absurd h (List.not_mem_nil b)
  · exact Or.inl (List.eq_of_mem_replicate h)

theorem c9Chunk_trimFull : trimFull c9Chunk = c9Chunk := by
  have h10 : c9Chunk.contains 10 = false := by
    rw [Bool.eq_false_iff]
    intro h
    rcases c9Chunk_mem 10 (List.mem_of_elem_eq_true h) with h10 | h10 <;>
      exact absurd h10 (by decide)
  rw [trimFull, h10]
  rfl

theorem c9Chunk_no_query : hasSub c9Query c9Chunk = false := by
  rw [Bool.eq_false_iff]
  intro h
  obtain ⟨u, v, huv⟩ := (hasSub_iff _ _).mp h
  have h81 : (81 : Nat) ∈ c9Chunk := by
    rw [huv, c9Query]; simp
  rcases c9Chunk_mem 81 h81 with h' | h' <;> exact absurd h' (by decide)

theorem c9File_length : c9File.length = 2049 := by
  rw [c9File, List.length_append, c9Chunk_length]
  rfl

theorem c9_first_step :
    does_file_match_query c9File c9Query =
      matchLoopGo c9Query 2048 [81] c9Chunk c9Chunk := by
  have hne : c9File ≠ [] := by
    intro h
    have := c9File_length
    rw [h] at this
    exact absurd this (by decide)
  rw [does_file_match_query, c9File_length,
    show (2049 : Nat) = 2048 + 1 from rfl, matchLoopGo_ne_nil _ _ _ _ _ hne]
  have hmin : min chunkSize c9File.length = 2048 := by
    rw [c9File_length]; rfl
  have htake : c9File.take 2048 = c9Chunk := by
    rw [c9File, List.take_left' c9Chunk_length]
  have hdrop : c9File.drop 2048 = [81] := by
    rw [c9File, List.drop_left' c9Chunk_length]
  have hbufdrop : (List.replicate chunkSize (0 : Nat)).drop 2048 = [] := by
    rw [List.drop_replicate]
    rfl
  simp only [hmin, htake, hdrop, hbufdrop, List.append_nil]
  rw [show trimFull [] = [] from rfl, List.nil_append, c9Chunk_no_query]
  exact if_neg (by decide)

theorem c9_second_step :
    matchLoopGo c9Query 2048 [81] c9Chunk c9Chunk = true := by
  rw [show (2048 : Nat) = 2047 + 1 from rfl,
    matchLoopGo_ne_nil _ _ _ _ _ (by simp : ([81] : List Nat) ≠ [])]
  have hmin : min chunkSize ([81] : List Nat).length = 1 := by rfl
  have htake1 : ([81] : List Nat).take 1 = [81] := rfl
  have hdrop1 : c9Chunk.drop 1 = 66 :: List.replicate 2046 88 := rfl
  simp only [hmin, htake1, hdrop1, c9Chunk_trimFull]
  have hfull : ([81] : List Nat) ++ (66 :: List.replicate 2046 88) =
      c9Query ++ List.replicate 2046 88 := rfl
  rw [hfull, ← List.append_assoc, hasSub_of_append]
  exact if_pos rfl

theorem c9File_count_81 : c9File.count 81 = 1 := by
  have h81 : (81 : Nat) ∉ c9Chunk := by
    intro h
    rcases c9Chunk_mem 81 h with h' | h' <;> exact absurd h' (by decide)
  rw [c9File, List.count_append, List.count_eq_zero.mpr h81]
  rfl

theorem c9File_no_query : hasSub c9Query c9File = false := by
  rw [Bool.eq_false_iff]
  intro h
  obtain ⟨u, v, huv⟩ := (hasSub_iff _ _).mp h
  rw [c9Query] at huv
  have huv' : c9File = u ++ (81 :: 66 :: v) := by
    rw [huv, List.append_assoc]
    rfl
  have hlast : c9File.getLast? = some 81 := by
    rw [c9File]; exact List.getLast?_concat c9Chunk
  have hlast' : (66 :: v).getLast? = some 81 := by
    rw [huv', List.getLast?_append_cons, List.getLast?_cons_cons] at hlast
    exact hlast
  have hv81 : (81 : Nat) ∉ v := by
    have hcount := c9File_count_81
    rw [huv] at hcount
    simp only [List.count_append, List.count_cons] at hcount
    have : v.count 81 = 0 := by
      simp at hcount
      omega
    exact List.count_eq_zero.mp this
  cases v with
  | nil => exact absurd hlast' (by decide)
  | cons w ws =>
    rw [show ((66 : Nat) :: w :: ws) = [66] ++ (w :: ws) from rfl,
      List.getLast?_append_of_ne_nil _ (by simp)] at hlast'
    exact hv81 (mem_of_getLast?_eq _ _ hlast')

/-- C9: for the 2049-byte file `88, 66, 88 × 2046, 81`, which nowhere
contains the byte pair `81, 66`, the streaming pre-scan nevertheless
returns `true` for the query bytes `81, 66`: the whole fixed-size read
array is appended to the rolling buffer regardless of how many bytes the
final read produced, so a stale byte of the previous chunk completes a
phantom match. -/
theorem c9_prescan_false_positive :
    does_file_match_query c9File c9Query = true ∧ hasSub c9Query c9File = false :=
  ⟨c9_first_step.trans c9_second_step, c9File_no_query⟩

/-! ## C2 counterexample: a query containing a newline can be evicted

The file `c2File` is `88 × 2046, 65, 10, 66` (2049 bytes); the query
`c2Query` is the bytes `65, 10, 66` (the query text contains a newline).  The first chunk ends with `65, 10`.
Before the second read is appended, the rolling buffer is trimmed to what
follows its last newline — evicting the `65, 10` that began the
occurrence — so the match straddling the chunk boundary is missed even
though the file contains the query. -/

theorem c2Chunk_length : c2Chunk.length = 2048 := by
  rw [c2Chunk, List.length_append, List.length_replicate]
  rfl

theorem c2File_eq : c2File = c2Chunk ++ [66] := by
  rw [c2File, c2Chunk, List.append_assoc]
  rfl

theorem c2File_length : c2File.length = 2049 := by
  rw [c2File_eq, List.length_append, c2Chunk_length]
  rfl

theorem c2Chunk_mem (b : Nat) (hb : b ∈ c2Chunk) : b = 88 ∨ b = 65 ∨ b = 10 := by
  rw [c2Chunk, List.mem_append] at hb
  rcases hb with h | h
  · exact Or.inl (List.eq_of_mem_replicate h)
  · rcases List.mem_cons.mp h with h' | h'
    · exact Or.inr (Or.inl h')
    · rcases List.mem_cons.mp h' with h'' | h''
      · exact Or.inr (Or.inr h'')
      · exact absurd h'' (List.not_mem_nil b)

theorem c2Chunk_no_query : hasSub c2Query c2Chunk = false := by
  rw [Bool.eq_false_iff]
  intro h
  obtain ⟨u, v, huv⟩ := (hasSub_iff _ _).mp h
  have h66 : (66 : Nat) ∈ c2Chunk := by
    rw [huv, c2Query]; simp
  rcases c2Chunk_mem 66 h66 with h' | h' | h' <;> exact absurd h' (by decide)

theorem lastNlSuffix_concat_10 (l : List Nat) : lastNlSuffix (l ++ [10]) = [] := by
  rw [lastNlSuffix, List.reverse_append,
    show ([(10 : Nat)]).reverse = [10] from rfl, List.cons_append,
    List.nil_append, List.takeWhile_cons, if_neg (by decide)]
  rfl

theorem c2Chunk_trimFull : trimFull c2Chunk = [] := by
  have hmem : (10 : Nat) ∈ c2Chunk := by
    rw [c2Chunk, List.mem_append]
    exact Or.inr (by decide)
  have hcont : c2Chunk.contains 10 = true := List.elem_eq_true_of_mem hmem
  have hsplit : c2Chunk = (List.replicate 2046 88 ++ [65]) ++ [10] := by
    rw [c2Chunk, List.append_assoc]
    rfl
  rw [trimFull, hcont, if_pos rfl, hsplit, lastNlSuffix_concat_10]

theorem c2_first_step :
    does_file_match_query c2File c2Query =
      matchLoopGo c2Query 2048 [66] c2Chunk c2Chunk := by
  have hne : c2File ≠ [] := by
    intro h
    have := c2File_length
    rw [h] at this
    exact absurd this (by decide)
  rw [does_file_match_query, c2File_length,
    show (2049 : Nat) = 2048 + 1 from rfl, matchLoopGo_ne_nil _ _ _ _ _ hne]
  have hmin : min chunkSize c2File.length = 2048 := by
    rw [c2File_length]; rfl
  have htake : c2File.take 2048 = c2Chunk := by
    rw [c2File_eq, List.take_left' c2Chunk_length]
  have hdrop : c2File.drop 2048 = [66] := by
    rw [c2File_eq, List.drop_left' c2Chunk_length]
  have hbufdrop : (List.replicate chunkSize (0 : Nat)).drop 2048 = [] := by
    rw [List.drop_replicate]
    rfl
  simp only [hmin, htake, hdrop, hbufdrop, List.append_nil]
  rw [show trimFull [] = [] from rfl, List.nil_append, c2Chunk_no_query]
  exact if_neg (by decide)

theorem c2_buf2_no_query :
    hasSub c2Query (66 :: (List.replicate 2045 88 ++ [65, 10])) = false := by
  rw [Bool.eq_false_iff]
  intro h
  obtain ⟨u, v, huv⟩ := (hasSub_iff _ _).mp h
  rw [c2Query] at huv
  have hcount : (66 :: (List.replicate 2045 88 ++ [65, 10])).count 66 = 1 := by
    have h66 : (66 : Nat) ∉ List.replicate 2045 88 ++ [65, 10] := by
      intro hmem
      rcases List.mem_append.mp hmem with h' | h'
      · exact absurd (List.eq_of_mem_replicate h') (by decide)
      · rcases List.mem_cons.mp h' with h'' | h''
        · exact absurd h'' (by decide)
        · rcases List.mem_cons.mp h'' with h3 | h3
          · exact absurd h3 (by decide)
          · exact absurd h3 (List.not_mem_nil 66)
    rw [List.count_cons, List.count_eq_zero.mpr h66]
    rfl
  rw [huv] at hcount
  simp only [List.count_append, List.count_cons] at hcount
  have hu66 : u.count 66 = 0 := by
    simp at hcount
    omega
  cases u with
  | nil =>
    rw [List.nil_append] at huv
    injection huv with h1 _
    exact absurd h1 (by decide)
  | cons u0 us =>
    rw [List.cons_append, List.cons_append] at huv
    injection huv with h1 _
    rw [List.count_cons] at hu66
    rw [← h1] at hu66
    simp at hu66

theorem c2_second_step :
    matchLoopGo c2Query 2048 [66] c2Chunk c2Chunk = false := by
  rw [show (2048 : Nat) = 2047 + 1 from rfl,
    matchLoopGo_ne_nil _ _ _ _ _ (by simp : ([66] : List Nat) ≠ [])]
  have hmin : min chunkSize ([66] : List Nat).length = 1 := by rfl
  have htake1 : ([66] : List Nat).take 1 = [66] := rfl
  have hdropbuf : c2Chunk.drop 1 = List.replicate 2045 88 ++ [65, 10] := by
    rw [c2Chunk, show (2046 : Nat) = 2045 + 1 from rfl, List.replicate_succ,
      List.cons_append]
    rfl
  have hdroprem : ([66] : List Nat).drop 1 = [] := rfl
  simp only [hmin, htake1, hdropbuf, hdroprem, c2Chunk_trimFull, List.nil_append,
    List.cons_append]
  rw [c2_buf2_no_query]
  rw [if_neg (by decide)]
  exact matchLoopGo_nil _ _ _ _

/-- C2 counterexample: the claim "whenever the file contains the raw query
bytes, the streaming pre-scan returns true, for any placement of newlines"
is false.  The 2049-byte file `88 × 2046, 65, 10, 66` contains the query
bytes `65, 10, 66`, but the pre-scan returns false: the newline inside the
partially-read occurrence makes the tail-trim evict the occurrence's first
bytes at the chunk boundary. -/
theorem c2_counterexample_newline_evicted :
    hasSub c2Query c2File = true ∧ does_file_match_query c2File c2Query = false := by
  constructor
  · refine (hasSub_iff _ _).mpr ⟨List.replicate 2046 88, [], ?_⟩
    rw [List.append_nil, c2File, c2Query]
  · exact c2_first_step.trans c2_second_step

/-! ## C2 amended: no false negatives for newline-free queries

For a nonempty query containing no newline byte, the streaming pre-scan
does find every file that contains the query bytes.  The key invariant is
that the rolling buffer always retains the last line of the consumed
input, and a newline-free occurrence that is cut by a chunk boundary lies
entirely inside (last line of consumed input) ++ (rest of file). -/

theorem takeWhile_of_all (p : Nat → Bool) :
    ∀ l : List Nat, (∀ a ∈ l, p a = true) → l.takeWhile p = l := by
  intro l
  induction l with
  | nil => intro _; rfl
  | cons a t ih =>
    intro h
    rw [List.takeWhile_cons, if_pos (h a (List.mem_cons_self a t))]
    rw [ih (fun b hb => h b (List.mem_cons_of_mem a hb))]

theorem takeWhile_append_of_all (p : Nat → Bool) :
    ∀ u : List Nat, (∀ a ∈ u, p a = true) →
      ∀ t : List Nat, (u ++ t).takeWhile p = u ++ t.takeWhile p := by
  intro u
  induction u with
  | nil => intro _ t; rfl
  | cons a us ih =>
    intro h t
    rw [List.cons_append, List.takeWhile_cons,
      if_pos (h a (List.mem_cons_self a us)),
      ih (fun b hb => h b (List.mem_cons_of_mem a hb)) t, List.cons_append]

theorem lastNlSuffix_append (t s : List Nat) (h10 : (10 : Nat) ∉ s) :
    lastNlSuffix (t ++ s) = lastNlSuffix t ++ s := by
  have hall : ∀ a ∈ s.reverse, (!(a == 10)) = true := by
    intro a ha
    have : a ≠ 10 := fun h => h10 (h ▸ List.mem_reverse.mp ha)
    simp [this]
  rw [lastNlSuffix, List.reverse_append,
    takeWhile_append_of_all _ s.reverse hall, List.reverse_append,
    List.reverse_reverse, lastNlSuffix]

theorem lastNlSuffix_of_no10 (l : List Nat) (h10 : (10 : Nat) ∉ l) :
    lastNlSuffix l = l := by
  have hall : ∀ a ∈ l.reverse, (!(a == 10)) = true := by
    intro a ha
    have : a ≠ 10 := fun h => h10 (h ▸ List.mem_reverse.mp ha)
    simp [this]
  rw [lastNlSuffix, takeWhile_of_all _ l.reverse hall, List.reverse_reverse]

theorem trimFull_eq_lastNl (l : List Nat) : trimFull l = lastNlSuffix l := by
  rw [trimFull]
  split
  · rfl
  · rename_i h
    have h10 : (10 : Nat) ∉ l := by
      intro hmem
      exact h (List.elem_eq_true_of_mem hmem)
    rw [lastNlSuffix_of_no10 l h10]

/-- Let-free unfolding of one pre-scan iteration. -/
theorem matchLoopStep (query : List Nat) (fuel : Nat) (rem buf full : List Nat)
    (h : rem ≠ []) :
    matchLoopGo query (fuel + 1) rem buf full =
      (if hasSub query (trimFull full ++
          (rem.take (min chunkSize rem.length) ++
            buf.drop (min chunkSize rem.length))) then true
       else
        matchLoopGo query fuel (rem.drop (min chunkSize rem.length))
          (rem.take (min chunkSize rem.length) ++
            buf.drop (min chunkSize rem.length))
          (trimFull full ++
            (rem.take (min chunkSize rem.length) ++
              buf.drop (min chunkSize rem.length)))) := by
  cases rem with
  | nil => exact absurd rfl h
  | cons r rs => rfl

/-- One boundary-crossing step of the occurrence invariant: if the
remaining input together with the rolling line holds an occurrence of the
(newline-free) query, then after consuming a chunk either the occurrence
is already inside the scanned buffer, or it persists relative to the new
rolling line and the new remainder. -/
theorem occurrence_step (query full' rem' u v : List Nat) (h10 : (10 : Nat) ∉ query)
    (heq : u ++ query ++ v = full' ++ rem') :
    (rem'.length ≤ v.length → hasSub query full' = true) ∧
    (v.length < rem'.length →
      ∃ u', lastNlSuffix full' ++ rem' = u' ++ query ++ v) := by
  constructor
  · intro hge
    have hsplit : v.take (v.length - rem'.length) ++ v.drop (v.length - rem'.length) = v :=
      List.take_append_drop _ v
    have heq2 : (u ++ query ++ v.take (v.length - rem'.length)) ++
        v.drop (v.length - rem'.length) = full' ++ rem' := by
      rw [List.append_assoc (u ++ query), hsplit]
      exact heq
    have hlen : (v.drop (v.length - rem'.length)).length = rem'.length := by
      rw [List.length_drop]
      omega
    obtain ⟨h1, _⟩ := List.append_inj' heq2 hlen
    exact (hasSub_iff query full').mpr ⟨u, v.take (v.length - rem'.length), h1.symm⟩
  · intro hlt
    have hlens := congrArg List.length heq
    simp only [List.length_append] at hlens
    by_cases hu : full'.length ≤ u.length
    · -- the occurrence lies entirely inside the remainder
      have hu2 : u.take full'.length ++ u.drop full'.length = u :=
        List.take_append_drop _ u
      have heq2 : u.take full'.length ++
          (u.drop full'.length ++ (query ++ v)) = full' ++ rem' := by
        rw [← List.append_assoc, hu2, ← List.append_assoc]
        exact heq
      have hlen : (u.take full'.length).length = full'.length := by
        rw [List.length_take]
        omega
      obtain ⟨_, h2⟩ := List.append_inj heq2 hlen
      refine ⟨lastNlSuffix full' ++ u.drop full'.length, ?_⟩
      rw [← h2, List.append_assoc, List.append_assoc]
    · -- the occurrence starts inside the scanned buffer: split the query
      have hk : full'.length - u.length ≤ query.length := by omega
      have hq2 : query.take (full'.length - u.length) ++
          query.drop (full'.length - u.length) = query := List.take_append_drop _ query
      have heq2 : (u ++ query.take (full'.length - u.length)) ++
          (query.drop (full'.length - u.length) ++ v) = full' ++ rem' := by
        rw [List.append_assoc, ← List.append_assoc (query.take _), hq2,
          ← List.append_assoc]
        exact heq
      have hlen : (u ++ query.take (full'.length - u.length)).length = full'.length := by
        rw [List.length_append, List.length_take]
        omega
      obtain ⟨h1, h2⟩ := List.append_inj heq2 hlen
      have hqa10 : (10 : Nat) ∉ query.take (full'.length - u.length) :=
        fun hmem => h10 (List.mem_of_mem_take hmem)
      have hLL : lastNlSuffix full' =
          lastNlSuffix u ++ query.take (full'.length - u.length) := by
        have := lastNlSuffix_append u (query.take (full'.length - u.length)) hqa10
        rw [h1] at this
        exact this
      refine ⟨lastNlSuffix u, ?_⟩
      rw [hLL, ← h2, List.append_assoc,
        ← List.append_assoc (query.take (full'.length - u.length)), hq2,
        ← List.append_assoc]

/-- The pre-scan loop invariant: if the last line of the rolling buffer
followed by the unread input holds an occurrence of the newline-free query
that ends inside the unread input, the loop reports a match. -/
theorem matchLoop_finds (query : List Nat) (h10 : (10 : Nat) ∉ query) :
    ∀ (fuel : Nat) (rem buf full : List Nat),
      rem.length ≤ fuel → buf.length = chunkSize →
      (∃ u v, lastNlSuffix full ++ rem = u ++ query ++ v ∧ v.length < rem.length) →
      matchLoopGo query fuel rem buf full = true := by
  intro fuel
  induction fuel with
  | zero =>
    intro rem buf full hfuel _ hocc
    obtain ⟨u, v, _, hv⟩ := hocc
    rw [List.length_eq_zero.mp (Nat.le_zero.mp hfuel)] at hv
    simp at hv
  | succ fuel ih =>
    intro rem buf full hfuel hbuf hocc
    obtain ⟨u, v, hocc, hvlen⟩ := hocc
    cases rem with
    | nil => simp at hvlen
    | cons r rs =>
      rw [matchLoopStep query fuel (r :: rs) buf full (by simp)]
      by_cases hsize : (r :: rs).length ≤ chunkSize
      · have hmin : min chunkSize (r :: rs).length = (r :: rs).length :=
          Nat.min_eq_right hsize
        rw [hmin, List.take_length]
        have hsub : hasSub query (trimFull full ++
            ((r :: rs) ++ buf.drop (r :: rs).length)) = true := by
          rw [trimFull_eq_lastNl]
          refine (hasSub_iff _ _).mpr ⟨u, v ++ buf.drop (r :: rs).length, ?_⟩
          rw [← List.append_assoc, hocc, List.append_assoc, List.append_assoc]
        rw [hsub]
        exact if_pos rfl
      · have hlt : chunkSize < (r :: rs).length := Nat.lt_of_not_le hsize
        have hmin : min chunkSize (r :: rs).length = chunkSize :=
          Nat.min_eq_left (Nat.le_of_lt hlt)
        have hstale : buf.drop chunkSize = [] := by
          rw [← hbuf]
          exact List.drop_length buf
        rw [hmin, hstale, List.append_nil, trimFull_eq_lastNl]
        have hchunk : (r :: rs).take chunkSize ++ (r :: rs).drop chunkSize = r :: rs :=
          List.take_append_drop _ _
        have heq : u ++ query ++ v =
            (lastNlSuffix full ++ (r :: rs).take chunkSize) ++
              (r :: rs).drop chunkSize := by
          rw [List.append_assoc (lastNlSuffix full), hchunk]
          exact hocc.symm
        have hstep := occurrence_step query
          (lastNlSuffix full ++ (r :: rs).take chunkSize)
          ((r :: rs).drop chunkSize) u v h10 heq
        by_cases hvc : v.length < ((r :: rs).drop chunkSize).length
        · obtain ⟨u', hu'⟩ := hstep.2 hvc
          by_cases hsub :
              hasSub query (lastNlSuffix full ++ (r :: rs).take chunkSize) = true
          · rw [hsub]
            exact if_pos rfl
          · have hf : hasSub query
                (lastNlSuffix full ++ (r :: rs).take chunkSize) = false :=
              Bool.eq_false_iff.mpr hsub
            rw [hf, if_neg (by decide)]
            have hcs : chunkSize = 2048 := rfl
            refine ih _ _ _ ?_ ?_ ⟨u', v, hu', hvc⟩
            · rw [List.length_drop]
              have := hfuel
              simp only [List.length_cons] at this ⊢
              omega
            · rw [List.length_take, hmin]
        · have hsub := hstep.1 (Nat.le_of_not_lt hvc)
          rw [hsub]
          exact if_pos rfl

/-- C2 (amended): whenever the raw query text is nonempty, contains no
newline byte, and occurs as a literal substring of the file bytes, the
streaming pre-scan `does_file_match_query` returns true — no false
negatives for newline-free queries, whatever the chunk boundaries and the
newlines in the file.  (As shown by `c2_counterexample_newline_evicted`,
the newline-free restriction cannot be dropped.) -/
theorem c2_amended_literal_found (file query u v : List Nat)
    (hne : query ≠ []) (h10 : (10 : Nat) ∉ query)
    (hocc : file = u ++ query ++ v) :
    does_file_match_query file query = true := by
  rw [does_file_match_query]
  apply matchLoop_finds query h10 file.length file _ [] (Nat.le_refl _)
    (List.length_replicate _ _)
  refine ⟨u, v, ?_, ?_⟩
  · rw [show lastNlSuffix [] = [] from rfl, List.nil_append]
    exact hocc
  · have hlen := congrArg List.length hocc
    simp only [List.length_append] at hlen
    have hq : 0 < query.length := List.length_pos.mpr hne
    omega

/-- Witness for the amended C2 at a concrete input: file bytes `97, 98`
contain the query byte `97`. -/
theorem c2_amended_literal_found_witness :
    does_file_match_query [97, 98] [97] = true :=
  c2_amended_literal_found [97, 98] [97] [] [98] (by decide) (by decide) rfl

/-- C10: the non-empty-query precondition is nowhere enforced.  With the
empty query string, `Config::new` succeeds (no validation of `query`
happens), the JS/TS pattern degenerates so that it matches a line
containing no queried symbol at all (here `foo: 1`, via the `\bQ:`
alternative becoming the bare `\b:`), and a full search over a file of
such lines returns them as results. -/
theorem c10_empty_query_unvalidated :
    Config.new ⟨"", some ["a.js"], some "js", true, false, false, none⟩
        (Except.error "guess unused")
      = Except.ok ⟨"", ["a.js"], FileType.JS, true, false, false,
          SearchMethod.prescanRegex⟩ ∧
    isMatch (get_regexp_for_query (litStr "".toList) FileType.JS)
        "foo: 1".toList = true ∧
    searchModel SearchMethod.prescanRegex
        (get_regexp_for_query (litStr "".toList) FileType.JS) "".toList
        FileType.JS true [WalkEntry.file (some "a.js") (some "foo: 1".toList)]
      = Except.ok [SearchResultM.mk "a.js" (some 1) "foo: 1".toList] := by
  exact ⟨rfl, by decide, by rfl⟩

/-! ## Inversion lemmas for the matcher

These recover, from a successful run of a pattern, the decomposition of
the input that the run consumed — used to reason about which occurrences
of the query a pattern match implies. -/

theorem prevAt_nil (p : Option Char) : prevAt p [] = p := rfl

theorem prevAt_cons (p : Option Char) (c : Char) (s : List Char) :
    prevAt p (c :: s) = prevAt (some c) s := rfl

theorem prevAt_some_eq :
    ∀ (s : List Char) (c : Char), prevAt (some c) s = (c :: s).getLast? := by
  intro s
  induction s with
  | nil => intro c; rfl
  | cons d ds ih =>
    intro c
    rw [prevAt_cons, ih d, List.getLast?_cons_cons]

theorem prevAt_none (s : List Char) : prevAt none s = s.getLast? := by
  cases s with
  | nil => rfl
  | cons c cs => rw [prevAt_cons, prevAt_some_eq]

theorem ne_nil_of_bnot_isEmpty {α : Type} (l : List α) (h : (!l.isEmpty) = true) :
    l ≠ [] := by
  cases l with
  | nil => simp [List.isEmpty_nil] at h
  | cons a t => exact List.cons_ne_nil a t

theorem searchFrom_split (r : RE) :
    ∀ (s : List Char) (p : Option Char), searchFrom r p s = true →
      ∃ s₁ s₂, s = s₁ ++ s₂ ∧ runRE r (prevAt p s₁) s₂ ≠ [] := by
  intro s
  induction s with
  | nil =>
    intro p h
    rw [searchFrom] at h
    exact ⟨[], [], rfl, ne_nil_of_bnot_isEmpty _ h⟩
  | cons c rest ih =>
    intro p h
    rw [searchFrom, Bool.or_eq_true] at h
    rcases h with h | h
    · exact ⟨[], c :: rest, rfl, ne_nil_of_bnot_isEmpty _ h⟩
    · obtain ⟨s₁, s₂, heq, hrun⟩ := ih (some c) h
      exact ⟨c :: s₁, s₂, by rw [heq, List.cons_append],
        by rw [prevAt_cons]; exact hrun⟩

theorem runRE_seq_mem {a b : RE} {p : Option Char} {s : List Char}
    {st : Option Char × List Char} (h : st ∈ runRE (RE.seq a b) p s) :
    ∃ st₁ ∈ runRE a p s, st ∈ runRE b st₁.1 st₁.2 := by
  rw [runRE, List.mem_flatMap] at h
  exact h

theorem runRE_alt_mem {a b : RE} {p : Option Char} {s : List Char}
    {st : Option Char × List Char} (h : st ∈ runRE (RE.alt a b) p s) :
    st ∈ runRE a p s ∨ st ∈ runRE b p s := by
  rw [runRE, List.mem_append] at h
  exact h

theorem runRE_wb_mem {p : Option Char} {s : List Char}
    {st : Option Char × List Char} (h : st ∈ runRE RE.wb p s) :
    st = (p, s) ∧ atBoundary p s.head? = true := by
  rw [runRE] at h
  split at h
  · rename_i hb
    rcases List.mem_singleton.mp h with rfl
    exact ⟨rfl, hb⟩
  · exact absurd h (List.not_mem_nil st)

theorem runRE_cls_mem {f : Char → Bool} {p : Option Char} {s : List Char}
    {st : Option Char × List Char} (h : st ∈ runRE (RE.cls f) p s) :
    ∃ c rest, s = c :: rest ∧ f c = true ∧ st = (some c, rest) := by
  cases s with
  | nil => rw [runRE] at h; exact absurd h (List.not_mem_nil st)
  | cons c rest =>
    rw [runRE] at h
    split at h
    · rename_i hf
      rcases List.mem_singleton.mp h with rfl
      exact ⟨c, rest, rfl, hf, rfl⟩
    · exact absurd h (List.not_mem_nil st)

theorem runRE_eps_mem {p : Option Char} {s : List Char}
    {st : Option Char × List Char} (h : st ∈ runRE RE.eps p s) : st = (p, s) := by
  rw [runRE] at h
  exact List.mem_singleton.mp h

theorem runRE_litStr_mem :
    ∀ (q : List Char) {p : Option Char} {s : List Char}
      {st : Option Char × List Char}, st ∈ runRE (litStr q) p s →
      s = q ++ st.2 ∧ st.1 = prevAt p q := by
  intro q
  induction q with
  | nil =>
    intro p s st h
    rcases runRE_eps_mem h with rfl
    exact ⟨rfl, rfl⟩
  | cons c q' ih =>
    intro p s st h
    obtain ⟨st₁, h₁, h₂⟩ := runRE_seq_mem h
    obtain ⟨d, rest, rfl, hf, rfl⟩ := runRE_cls_mem h₁
    dsimp only at h₂
    obtain ⟨hs, hp⟩ := ih h₂
    have hd : d = c := by simpa using hf
    subst hd
    exact ⟨by rw [hs, List.cons_append], by rw [hp, prevAt_cons]⟩

theorem starStates_mem :
    ∀ (s : List Char) (f : Char → Bool) (p : Option Char)
      {st : Option Char × List Char}, st ∈ starStates f p s →
      ∃ w rest, s = w ++ rest ∧ st = (prevAt p w, rest) ∧
        ∀ c ∈ w, f c = true := by
  intro s
  induction s with
  | nil =>
    intro f p st h
    rw [starStates] at h
    rcases List.mem_singleton.mp (by simpa using h) with rfl
    exact ⟨[], [], rfl, rfl, by intro c hc; exact absurd hc (List.not_mem_nil c)⟩
  | cons c rest ih =>
    intro f p st h
    rw [starStates] at h
    rcases List.mem_cons.mp h with rfl | h
    · exact ⟨[], c :: rest, rfl, rfl, by intro x hx; exact absurd hx (List.not_mem_nil x)⟩
    · split at h
      · rename_i hf
        obtain ⟨w, rest', heq, hst, hall⟩ := ih f (some c) h
        refine ⟨c :: w, rest', by rw [heq, List.cons_append], ?_, ?_⟩
        · rw [hst, prevAt_cons]
        · intro x hx
          rcases List.mem_cons.mp hx with rfl | hx
          · exact hf
          · exact hall x hx
      · exact absurd h (List.not_mem_nil st)

theorem runRE_starCls_mem {f : Char → Bool} {p : Option Char} {s : List Char}
    {st : Option Char × List Char} (h : st ∈ runRE (RE.starCls f) p s) :
    ∃ w rest, s = w ++ rest ∧ st = (prevAt p w, rest) ∧ ∀ c ∈ w, f c = true := by
  rw [runRE] at h
  exact starStates_mem s f p h

theorem runRE_plusCls_mem {f : Char → Bool} {p : Option Char} {s : List Char}
    {st : Option Char × List Char} (h : st ∈ runRE (plusCls f) p s) :
    ∃ w rest, s = w ++ rest ∧ w ≠ [] ∧ st = (prevAt p w, rest) ∧
      ∀ c ∈ w, f c = true := by
  obtain ⟨st₁, h₁, h₂⟩ := runRE_seq_mem h
  obtain ⟨c, rest₁, rfl, hf, rfl⟩ := runRE_cls_mem h₁
  dsimp only at h₂
  obtain ⟨w, rest, heq, hst, hall⟩ := runRE_starCls_mem h₂
  refine ⟨c :: w, rest, by rw [heq, List.cons_append], List.cons_ne_nil c w, ?_, ?_⟩
  · rw [hst, prevAt_cons]
  · intro x hx
    rcases List.mem_cons.mp hx with rfl | hx
    · exact hf
    · exact hall x hx

theorem runRE_kwPHP_shape {p : Option Char} {s : List Char}
    {st : Option Char × List Char} (h : st ∈ runRE kwPHP p s) :
    ∃ k, s = k ++ st.2 ∧ st.1 = prevAt p k := by
  rw [kwPHP] at h
  rcases runRE_alt_mem h with h | h
  · exact ⟨_, runRE_litStr_mem _ h⟩
  rcases runRE_alt_mem h with h | h
  · exact ⟨_, runRE_litStr_mem _ h⟩
  rcases runRE_alt_mem h with h | h
  · exact ⟨_, runRE_litStr_mem _ h⟩
  rcases runRE_alt_mem h with h | h
  · exact ⟨_, runRE_litStr_mem _ h⟩
  · exact ⟨_, runRE_litStr_mem _ h⟩

theorem runRE_kwJS_shape {p : Option Char} {s : List Char}
    {st : Option Char × List Char} (h : st ∈ runRE kwJS p s) :
    ∃ k, s = k ++ st.2 ∧ st.1 = prevAt p k := by
  rw [kwJS] at h
  rcases runRE_alt_mem h with h | h
  · exact ⟨_, runRE_litStr_mem _ h⟩
  rcases runRE_alt_mem h with h | h
  · exact ⟨_, runRE_litStr_mem _ h⟩
  rcases runRE_alt_mem h with h | h
  · exact ⟨_, runRE_litStr_mem _ h⟩
  rcases runRE_alt_mem h with h | h
  · exact ⟨_, runRE_litStr_mem _ h⟩
  rcases runRE_alt_mem h with h | h
  · exact ⟨_, runRE_litStr_mem _ h⟩
  rcases runRE_alt_mem h with h | h
  · exact ⟨_, runRE_litStr_mem _ h⟩
  · exact ⟨_, runRE_litStr_mem _ h⟩

theorem isPrefixOf_append_self :
    ∀ (q v : List Char), q.isPrefixOf (q ++ v) = true := by
  intro q
  induction q with
  | nil =>
    intro v
    rw [List.nil_append]
    cases v <;> rfl
  | cons c q' ih =>
    intro v
    rw [List.cons_append, List.isPrefixOf]
    simp only [beq_self_eq_true, Bool.true_and]
    exact ih v

theorem onlyFlanked_spec (q line : List Char) (h : onlyFlanked q line = true) :
    ∀ u v, line = u ++ q ++ v →
      isWordO u.getLast? = true ∨ isWordO v.head? = true := by
  intro u v huv
  rw [onlyFlanked, List.all_eq_true] at h
  have hiu : u.length ∈ List.range (line.length + 1) := by
    rw [List.mem_range]
    have := congrArg List.length huv
    simp only [List.length_append] at this
    omega
  have hcond := h u.length hiu
  have h1 : (u ++ q ++ v).drop u.length = q ++ v := by
    rw [List.append_assoc, List.drop_left]
  have h2 : (u ++ q ++ v).take u.length = u := by
    rw [List.append_assoc, List.take_left]
  have h3 : (u ++ q ++ v).drop (u.length + q.length) = v := by
    rw [show u.length + q.length = (u ++ q).length from (List.length_append u q).symm,
      List.drop_left]
  rw [huv, h1, h2, h3, isPrefixOf_append_self] at hcond
  simp only [Bool.not_true, Bool.false_or, Bool.or_eq_true] at hcond
  exact hcond

theorem not_word_of_space (c : Char) (h : isSpaceChar c = true) :
    isWordChar c = false := by
  rw [isSpaceChar] at h
  simp only [Bool.or_eq_true, beq_iff_eq] at h
  rcases h with ((((rfl | rfl) | rfl) | rfl) | rfl) | rfl <;> rfl

theorem word_prevAt_of_all (q : List Char) (hne : q ≠ [])
    (hall : ∀ c ∈ q, isWordChar c = true) (p : Option Char) :
    isWordO (prevAt p q) = true := by
  cases q with
  | nil => exact absurd rfl hne
  | cons c q' =>
    rw [prevAt_cons, prevAt_some_eq,
      List.getLast?_eq_getLast (c :: q') (List.cons_ne_nil c q')]
    exact hall _ (List.getLast_mem _)

theorem word_head_of_all (q : List Char) (q0 : Char) (q' : List Char)
    (hq : q = q0 :: q') (hall : ∀ c ∈ q, isWordChar c = true) :
    isWordChar q0 = true :=
  hall q0 (hq ▸ List.mem_cons_self q0 q')

/-- A PHP query pattern for an identifier query never matches a line in
which every occurrence of the query is flanked by a word character. -/
theorem phpRE_no_match (q line : List Char) (hne : q ≠ [])
    (hword : ∀ c ∈ q, isWordChar c = true)
    (hflank : ∀ u v, line = u ++ q ++ v →
      isWordO u.getLast? = true ∨ isWordO v.head? = true) :
    isMatch (phpRE (litStr q)) line = false := by
  rw [Bool.eq_false_iff]
  intro h
  rw [isMatch] at h
  obtain ⟨s₁, s₂, rfl, hrun⟩ := searchFrom_split _ line none h
  obtain ⟨st, hst⟩ := List.exists_mem_of_ne_nil _ hrun
  rw [phpRE] at hst
  obtain ⟨st1, h1, hrest⟩ := runRE_seq_mem hst
  rcases runRE_wb_mem h1 with ⟨rfl, -⟩
  dsimp only at hrest
  obtain ⟨st2, h2, hrest⟩ := runRE_seq_mem hrest
  obtain ⟨k, hk1, hk2⟩ := runRE_kwPHP_shape h2
  obtain ⟨st3, h3, hrest⟩ := runRE_seq_mem hrest
  obtain ⟨c, r₂, hr1, hc, rfl⟩ := runRE_cls_mem h3
  have hc' : c = ' ' := by simpa using hc
  subst hc'
  dsimp only at hrest
  obtain ⟨st4, h4, h5⟩ := runRE_seq_mem hrest
  obtain ⟨hq1, hq2⟩ := runRE_litStr_mem q h4
  rcases runRE_wb_mem h5 with ⟨-, hb⟩
  have hline : s₁ ++ s₂ = (s₁ ++ k ++ [' ']) ++ q ++ st4.2 := by
    rw [hk1, hr1, hq1]
    simp [List.append_assoc]
  rcases hflank _ _ hline with hl | hr
  · rw [List.getLast?_concat] at hl
    exact absurd hl (by decide)
  · have hw : isWordO st4.1 = true := by
      rw [hq2]
      exact word_prevAt_of_all q hne hword _
    have hhead : isWordO st4.2.head? = false := by
      cases hx : isWordO st4.2.head?
      · rfl
      · rw [atBoundary, hw, hx] at hb
        exact absurd hb (by decide)
    rw [hhead] at hr
    exact absurd hr (by decide)

/-- The JS query pattern for an identifier query never matches a line in
which every occurrence of the query is flanked by a word character,
provided the literal `@typedef` does not occur in the line (the fourth
pattern alternative is not word-boundary-anchored on its left). -/
theorem jsRE_no_match (q line : List Char) (hne : q ≠ [])
    (hword : ∀ c ∈ q, isWordChar c = true)
    (hflank : ∀ u v, line = u ++ q ++ v →
      isWordO u.getLast? = true ∨ isWordO v.head? = true)
    (htd : hasSub "@typedef".toList line = false) :
    isMatch (jsRE (litStr q)) line = false := by
  rw [Bool.eq_false_iff]
  intro h
  rw [isMatch] at h
  obtain ⟨s₁, s₂, rfl, hrun⟩ := searchFrom_split _ line none h
  obtain ⟨st, hst⟩ := List.exists_mem_of_ne_nil _ hrun
  rw [jsRE] at hst
  rcases runRE_alt_mem hst with hA | hst
  · -- alternative 1: keyword, spaces, query, boundary
    rw [jsAlt1] at hA
    obtain ⟨st1, h1, hrest⟩ := runRE_seq_mem hA
    rcases runRE_wb_mem h1 with ⟨rfl, -⟩
    dsimp only at hrest
    obtain ⟨st2, h2, hrest⟩ := runRE_seq_mem hrest
    obtain ⟨k, hk1, hk2⟩ := runRE_kwJS_shape h2
    obtain ⟨st3, h3, hrest⟩ := runRE_seq_mem hrest
    obtain ⟨w, r₂, hw1, hwne, rfl, hall⟩ := runRE_plusCls_mem h3
    dsimp only at hrest
    obtain ⟨st4, h4, h5⟩ := runRE_seq_mem hrest
    obtain ⟨hq1, hq2⟩ := runRE_litStr_mem q h4
    rcases runRE_wb_mem h5 with ⟨-, hb⟩
    have hline : s₁ ++ s₂ = (s₁ ++ k ++ w) ++ q ++ st4.2 := by
      rw [hk1, hw1, hq1]
      simp [List.append_assoc]
    rcases hflank _ _ hline with hl | hr
    · rw [List.getLast?_append_of_ne_nil (s₁ ++ k) hwne,
        List.getLast?_eq_getLast w hwne] at hl
      have : isWordChar (w.getLast hwne) = false :=
        not_word_of_space _ (hall _ (List.getLast_mem hwne))
      rw [isWordO] at hl
      rw [this] at hl
      exact absurd hl (by decide)
    · have hw4 : isWordO st4.1 = true := by
        rw [hq2]
        exact word_prevAt_of_all q hne hword _
      have hhead : isWordO st4.2.head? = false := by
        cases hx : isWordO st4.2.head?
        · rfl
        · rw [atBoundary, hw4, hx] at hb
          exact absurd hb (by decide)
      rw [hhead] at hr
      exact absurd hr (by decide)
  rcases runRE_alt_mem hst with hA | hst
  · -- alternative 2: query immediately followed by an open parenthesis
    rw [jsAlt2] at hA
    obtain ⟨st1, h1, hrest⟩ := runRE_seq_mem hA
    rcases runRE_wb_mem h1 with ⟨rfl, hb⟩
    dsimp only at hrest
    obtain ⟨st2, h2, hrest⟩ := runRE_seq_mem hrest
    obtain ⟨hq1, hq2⟩ := runRE_litStr_mem q h2
    obtain ⟨st3, h3, -⟩ := runRE_seq_mem hrest
    obtain ⟨c, r₃, hr1, hc, rfl⟩ := runRE_cls_mem h3
    have hc' : c = '(' := by simpa using hc
    subst hc'
    cases hqc : q with
    | nil => exact absurd hqc hne
    | cons q0 q' =>
      have hhd : s₂.head? = some q0 := by
        rw [hq1, hqc, List.cons_append]
        rfl
      have hq0w : isWordChar q0 = true := word_head_of_all q q0 q' hqc hword
      have hp0 : isWordO (prevAt none s₁) = false := by
        cases hx : isWordO (prevAt none s₁)
        · rfl
        · rw [atBoundary, hhd, hx] at hb
          rw [show isWordO (some q0) = isWordChar q0 from rfl, hq0w] at hb
          exact absurd hb (by decide)
      have hline : s₁ ++ s₂ = s₁ ++ q ++ ('(' :: r₃) := by
        rw [hq1, hr1]
        simp [List.append_assoc]
      rcases hflank _ _ hline with hl | hr
      · rw [← prevAt_none, hp0] at hl
        exact absurd hl (by decide)
      · rw [List.head?_cons] at hr
        exact absurd hr (by decide)
  rcases runRE_alt_mem hst with hA | hA
  · -- alternative 3: query immediately followed by a colon
    rw [jsAlt3] at hA
    obtain ⟨st1, h1, hrest⟩ := runRE_seq_mem hA
    rcases runRE_wb_mem h1 with ⟨rfl, hb⟩
    dsimp only at hrest
    obtain ⟨st2, h2, h3⟩ := runRE_seq_mem hrest
    obtain ⟨hq1, hq2⟩ := runRE_litStr_mem q h2
    obtain ⟨c, r₃, hr1, hc, rfl⟩ := runRE_cls_mem h3
    have hc' : c = ':' := by simpa using hc
    subst hc'
    cases hqc : q with
    | nil => exact absurd hqc hne
    | cons q0 q' =>
      have hhd : s₂.head? = some q0 := by
        rw [hq1, hqc, List.cons_append]
        rfl
      have hq0w : isWordChar q0 = true := word_head_of_all q q0 q' hqc hword
      have hp0 : isWordO (prevAt none s₁) = false := by
        cases hx : isWordO (prevAt none s₁)
        · rfl
        · rw [atBoundary, hhd, hx] at hb
          rw [show isWordO (some q0) = isWordChar q0 from rfl, hq0w] at hb
          exact absurd hb (by decide)
      have hline : s₁ ++ s₂ = s₁ ++ q ++ (':' :: r₃) := by
        rw [hq1, hr1]
        simp [List.append_assoc]
      rcases hflank _ _ hline with hl | hr
      · rw [← prevAt_none, hp0] at hl
        exact absurd hl (by decide)
      · rw [List.head?_cons] at hr
        exact absurd hr (by decide)
  · -- alternative 4: requires the literal `@typedef` in the line
    rw [jsAlt4] at hA
    obtain ⟨st1, h1, -⟩ := runRE_seq_mem hA
    obtain ⟨ht1, -⟩ := runRE_litStr_mem _ h1
    have : hasSub "@typedef".toList (s₁ ++ s₂) = true := by
      rw [ht1, ← List.append_assoc]
      exact hasSub_of_append _ s₁ st1.2
    rw [htd] at this
    exact absurd this (by decide)

/-- C4 counterexample: the claim fails as stated.  Query `foo` occurs in
the line `@typedeffoo` only as a proper substring of the longer
identifier-like run `typedeffoo` (its only occurrence is preceded by the
word character `f`), yet the compiled JS pattern matches the line: the
`@typedef` alternative places no word boundary on the left of the query,
and its `\s*` parts may match the empty string. -/
theorem c4_counterexample_typedef :
    onlyFlanked "foo".toList "@typedeffoo".toList = true ∧
    isMatch (get_regexp_for_query (litStr "foo".toList) FileType.JS)
      "@typedeffoo".toList = true :=
  ⟨by decide, by decide⟩

/-- C4 (amended): for an identifier query (nonempty, all word characters)
and a line in which every occurrence of the query is flanked by a word
character on at least one side, the compiled PHP pattern never matches,
and the compiled JS pattern never matches provided the literal `@typedef`
does not occur in the line.  (`c4_counterexample_typedef` shows the
`@typedef` proviso cannot be dropped.) -/
theorem c4_amended_word_boundary (q line : List Char) (ft : FileType)
    (hne : q ≠ []) (hword : q.all isWordChar = true)
    (hflank : onlyFlanked q line = true)
    (htd : ft = FileType.PHP ∨
      (ft = FileType.JS ∧ hasSub "@typedef".toList line = false)) :
    isMatch (get_regexp_for_query (litStr q) ft) line = false := by
  have hword' : ∀ c ∈ q, isWordChar c = true := List.all_eq_true.mp hword
  have hflank' := onlyFlanked_spec q line hflank
  rcases htd with rfl | ⟨rfl, htd⟩
  · exact phpRE_no_match q line hne hword' hflank'
  · exact jsRE_no_match q line hne hword' hflank' htd

/-- Witness for the amended C4 at a concrete input: query `foo`, JS type,
line `foobar(x) = 1;` where `foo` occurs only inside `foobar`. -/
theorem c4_amended_word_boundary_witness :
    isMatch (get_regexp_for_query (litStr "foo".toList) FileType.JS)
      "foobar(x) = 1;".toList = false :=
  c4_amended_word_boundary "foo".toList "foobar(x) = 1;".toList FileType.JS
    (by decide) (by decide) (by decide) (Or.inr ⟨rfl, by decide⟩)

/-! ## Context-extension lemmas for the matcher

A match found inside one line is also found when the line is surrounded by
non-word context (such as the newlines separating lines in the whole-file
buffer).  These lemmas justify that the whole-buffer regex pre-scan can
never reject a file one of whose lines matches. -/

theorem mem_starStates_self (f : Char → Bool) (p : Option Char) (s : List Char) :
    (p, s) ∈ starStates f p s := by
  rw [starStates.eq_def]
  exact List.mem_cons_self _ _

theorem mem_starStates_tail (f : Char → Bool) (p : Option Char) (c : Char)
    (rest : List Char) {st : Option Char × List Char} (hf : f c = true)
    (h : st ∈ starStates f (some c) rest) : st ∈ starStates f p (c :: rest) := by
  rw [starStates.eq_def]
  dsimp only
  rw [hf, if_pos rfl]
  exact List.mem_cons_of_mem _ h

theorem starStates_extend (f : Char → Bool) :
    ∀ (s : List Char) (p q : Option Char) (t : List Char),
      isWordO p = isWordO q →
      ∀ st ∈ starStates f p s, ∃ st' ∈ starStates f q (s ++ t),
        st'.2 = st.2 ++ t ∧ isWordO st'.1 = isWordO st.1 := by
  intro s
  induction s with
  | nil =>
    intro p q t hpq st hst
    rw [starStates] at hst
    rcases List.mem_singleton.mp (by simpa using hst) with rfl
    refine ⟨(q, t), ?_, rfl, hpq.symm⟩
    rw [List.nil_append]
    exact mem_starStates_self f q t
  | cons c rest ih =>
    intro p q t hpq st hst
    rw [starStates] at hst
    rcases List.mem_cons.mp hst with rfl | hst
    · refine ⟨(q, (c :: rest) ++ t), ?_, by rw [List.cons_append], hpq.symm⟩
      rw [List.cons_append]
      exact mem_starStates_self f q _
    · split at hst
      · rename_i hf
        obtain ⟨st', hmem, h2, h1⟩ := ih (some c) (some c) t rfl st hst
        refine ⟨st', ?_, h2, h1⟩
        rw [List.cons_append]
        exact mem_starStates_tail f q c (rest ++ t) hf hmem
      · exact absurd hst (List.not_mem_nil st)

theorem runRE_extend :
    ∀ (r : RE) (p q : Option Char) (s t : List Char),
      isWordO p = isWordO q → isWordO t.head? = false →
      ∀ st ∈ runRE r p s, ∃ st' ∈ runRE r q (s ++ t),
        st'.2 = st.2 ++ t ∧ isWordO st'.1 = isWordO st.1 := by
  intro r
  induction r with
  | eps =>
    intro p q s t hpq _ st hst
    rcases runRE_eps_mem hst with rfl
    exact ⟨(q, s ++ t), by rw [runRE]; exact List.mem_singleton.mpr rfl, rfl, hpq.symm⟩
  | cls f =>
    intro p q s t hpq _ st hst
    obtain ⟨c, rest, rfl, hf, rfl⟩ := runRE_cls_mem hst
    refine ⟨(some c, rest ++ t), ?_, rfl, rfl⟩
    rw [List.cons_append, runRE, hf]
    exact List.mem_singleton.mpr rfl
  | seq a b iha ihb =>
    intro p q s t hpq ht st hst
    obtain ⟨st₁, h₁, h₂⟩ := runRE_seq_mem hst
    obtain ⟨st₁', hmem₁, he₁, hw₁⟩ := iha p q s t hpq ht st₁ h₁
    obtain ⟨st', hmem₂, he₂, hw₂⟩ := ihb st₁.1 st₁'.1 st₁.2 t hw₁.symm ht st h₂
    refine ⟨st', ?_, he₂, hw₂⟩
    rw [runRE, List.mem_flatMap]
    exact ⟨st₁', hmem₁, by rw [he₁]; exact hmem₂⟩
  | alt a b iha ihb =>
    intro p q s t hpq ht st hst
    rcases runRE_alt_mem hst with h | h
    · obtain ⟨st', hmem, he, hw⟩ := iha p q s t hpq ht st h
      exact ⟨st', by rw [runRE, List.mem_append]; exact Or.inl hmem, he, hw⟩
    · obtain ⟨st', hmem, he, hw⟩ := ihb p q s t hpq ht st h
      exact ⟨st', by rw [runRE, List.mem_append]; exact Or.inr hmem, he, hw⟩
  | starCls f =>
    intro p q s t hpq _ st hst
    rw [runRE] at hst
    obtain ⟨st', hmem, he, hw⟩ := starStates_extend f s p q t hpq st hst
    exact ⟨st', by rw [runRE]; exact hmem, he, hw⟩
  | wb =>
    intro p q s t hpq ht st hst
    rcases runRE_wb_mem hst with ⟨rfl, hb⟩
    have hb' : atBoundary q (s ++ t).head? = true := by
      cases s with
      | nil =>
        rw [List.nil_append]
        rw [List.head?_nil] at hb
        rw [atBoundary] at hb ⊢
        rw [ht, ← hpq]
        exact hb
      | cons c rest =>
        rw [List.cons_append, List.head?_cons]
        rw [List.head?_cons] at hb
        rw [atBoundary] at hb ⊢
        rw [← hpq]
        exact hb
    refine ⟨(q, s ++ t), ?_, rfl, hpq.symm⟩
    rw [runRE, hb']
    exact List.mem_singleton.mpr rfl

theorem searchFrom_of_runRE (r : RE) :
    ∀ (s₁ : List Char) (p : Option Char) (s₂ : List Char),
      runRE r (prevAt p s₁) s₂ ≠ [] → searchFrom r p (s₁ ++ s₂) = true := by
  intro s₁
  induction s₁ with
  | nil =>
    intro p s₂ h
    rw [prevAt_nil] at h
    rw [List.nil_append]
    cases s₂ with
    | nil =>
      rw [searchFrom]
      simpa [List.isEmpty_iff] using h
    | cons c rest =>
      rw [searchFrom, Bool.or_eq_true]
      exact Or.inl (by simpa [List.isEmpty_iff] using h)
  | cons c s₁' ih =>
    intro p s₂ h
    rw [prevAt_cons] at h
    rw [List.cons_append, searchFrom, Bool.or_eq_true]
    exact Or.inr (ih (some c) s₂ h)

/-- A match inside `l` is a match inside `u ++ l ++ v` whenever the
characters adjacent to `l` in the surrounding text are non-word (or
absent). -/
theorem isMatch_embed (r : RE) (l u v : List Char)
    (hu : isWordO u.getLast? = false) (hv : isWordO v.head? = false)
    (h : isMatch r l = true) : isMatch r (u ++ l ++ v) = true := by
  rw [isMatch] at h
  obtain ⟨s₁, s₂, rfl, hrun⟩ := searchFrom_split r l none h
  obtain ⟨st, hst⟩ := List.exists_mem_of_ne_nil _ hrun
  have hpq : isWordO (prevAt none s₁) = isWordO (prevAt none (u ++ s₁)) := by
    cases s₁ with
    | nil =>
      rw [prevAt_nil, List.append_nil, prevAt_none]
      rw [show isWordO (none : Option Char) = false from rfl, hu]
    | cons c s₁' =>
      rw [prevAt_none, prevAt_none, List.getLast?_append_cons]
  obtain ⟨st', hmem, -, -⟩ := runRE_extend r (prevAt none s₁)
    (prevAt none (u ++ s₁)) s₂ v hpq hv st hst
  have hne : runRE r (prevAt none (u ++ s₁)) (s₂ ++ v) ≠ [] :=
    List.ne_nil_of_mem hmem
  have := searchFrom_of_runRE r (u ++ s₁) none (s₂ ++ v) hne
  rw [isMatch, show u ++ (s₁ ++ s₂) ++ v = (u ++ s₁) ++ (s₂ ++ v) by
    simp [List.append_assoc]]
  exact this

/-! ## Line decomposition: every line sits in the file between non-word
context (start of file, a preceding newline, a following newline or
carriage return, or end of file). -/

theorem rawLines_ne_nil (s : List Char) (h : s ≠ []) : rawLines s ≠ [] := by
  cases s with
  | nil => exact absurd rfl h
  | cons c s' =>
    rw [rawLines]
    split
    · exact List.cons_ne_nil _ _
    · split <;> exact List.cons_ne_nil _ _

theorem rawLines_cons_structure :
    ∀ (s l₀ : List Char) (ls : List (List Char)), rawLines s = l₀ :: ls →
      ∃ v, s = l₀ ++ v ∧
        ((v = [] ∧ ls = []) ∨ ∃ v', v = '\n' :: v' ∧ ls = rawLines v') := by
  intro s
  induction s with
  | nil =>
    intro l₀ ls h
    rw [rawLines] at h
    exact absurd h.symm (List.cons_ne_nil l₀ ls)
  | cons c s' ih =>
    intro l₀ ls h
    rw [rawLines] at h
    split at h
    · rename_i hc
      subst hc
      injection h with h1 h2
      subst h1
      exact ⟨'\n' :: s', rfl, Or.inr ⟨s', rfl, h2.symm⟩⟩
    · rename_i hc
      split at h
      · rename_i hrl
        have hs' : s' = [] := by
          by_contra hne
          exact rawLines_ne_nil s' hne hrl
        subst hs'
        injection h with h1 h2
        subst h1
        subst h2
        exact ⟨[], by rw [List.append_nil], Or.inl ⟨rfl, rfl⟩⟩
      · rename_i m ms hrl
        injection h with h1 h2
        subst h1
        subst h2
        obtain ⟨v, hs, hv⟩ := ih m ms hrl
        exact ⟨v, by rw [hs, List.cons_append], hv⟩

theorem rawLines_decomp :
    ∀ (n : Nat) (s : List Char), s.length ≤ n → ∀ l ∈ rawLines s,
      ∃ u v, s = u ++ l ++ v ∧
        (u = [] ∨ ∃ u', u = u' ++ ['\n']) ∧
        (v = [] ∨ ∃ v', v = '\n' :: v') := by
  intro n
  induction n with
  | zero =>
    intro s hlen l hl
    have : s = [] := List.length_eq_zero.mp (Nat.le_zero.mp hlen)
    subst this
    rw [rawLines] at hl
    exact absurd hl (List.not_mem_nil l)
  | succ m ih =>
    intro s hlen l hl
    cases hrl : rawLines s with
    | nil => rw [hrl] at hl; exact absurd hl (List.not_mem_nil l)
    | cons l₀ ls =>
      rw [hrl] at hl
      obtain ⟨v, hs, hv⟩ := rawLines_cons_structure s l₀ ls hrl
      rcases List.mem_cons.mp hl with rfl | hl
      · refine ⟨[], v, by rw [List.nil_append]; exact hs, Or.inl rfl, ?_⟩
        rcases hv with ⟨hv0, -⟩ | ⟨v', hv', -⟩
        · exact Or.inl hv0
        · exact Or.inr ⟨v', hv'⟩
      · rcases hv with ⟨-, hls⟩ | ⟨v', hv', hls⟩
        · rw [hls] at hl
          exact absurd hl (List.not_mem_nil l)
        · subst hls
          have hvlen : v'.length ≤ m := by
            have := congrArg List.length hs
            rw [hv'] at this
            simp only [List.length_append, List.length_cons] at this
            omega
          obtain ⟨u, v₂, hsv, hu, hv₂⟩ := ih v' hvlen l hl
          refine ⟨l₀ ++ '\n' :: u, v₂, ?_, ?_, hv₂⟩
          · rw [hs, hv', hsv]
            simp [List.append_assoc]
          · rcases hu with rfl | ⟨u', rfl⟩
            · exact Or.inr ⟨l₀, rfl⟩
            · exact Or.inr ⟨l₀ ++ '\n' :: u', by simp [List.append_assoc]⟩

theorem stripCR_decomp (raw : List Char) :
    ∃ t, raw = stripCR raw ++ t ∧ (t = [] ∨ t = ['\r']) := by
  rw [stripCR]
  split
  · rename_i h
    refine ⟨['\r'], ?_, Or.inr rfl⟩
    have hne : raw ≠ [] := by
      intro h0
      rw [h0] at h
      exact absurd h (by simp)
    have hlast : raw.getLast hne = '\r' := by
      have := List.getLast?_eq_getLast raw hne
      rw [this] at h
      injection h
    conv_lhs => rw [← List.dropLast_append_getLast hne]
    rw [hlast]
  · exact ⟨[], by rw [List.append_nil], Or.inl rfl⟩

theorem scanLinesFrom_eq_nil (re : RE) (path : String) (w : Bool) :
    ∀ (ls : List (List Char)) (i : Nat), (∀ l ∈ ls, isMatch re l = false) →
      scanLinesFrom re path w i ls = [] := by
  intro ls
  induction ls with
  | nil => intro i _; rfl
  | cons l ls ih =>
    intro i hall
    rw [scanLinesFrom, hall l (List.mem_cons_self l ls),
      ih (i + 1) (fun x hx => hall x (List.mem_cons_of_mem l hx))]
    rfl

/-- If the whole-buffer pattern check fails, every line of the buffer
fails the pattern as well. -/
theorem line_match_implies_buffer_match (re : RE) (content l : List Char)
    (hl : l ∈ linesOf content) (hm : isMatch re l = true) :
    isMatch re content = true := by
  rw [linesOf, List.mem_map] at hl
  obtain ⟨raw, hraw, rfl⟩ := hl
  obtain ⟨u, v, hs, hu, hv⟩ :=
    rawLines_decomp content.length content (Nat.le_refl _) raw hraw
  obtain ⟨t, hraw2, ht⟩ := stripCR_decomp raw
  have hs2 : content = u ++ stripCR raw ++ (t ++ v) := by
    rw [hs]
    conv_lhs => rw [hraw2]
    simp [List.append_assoc]
  have hu' : isWordO u.getLast? = false := by
    rcases hu with rfl | ⟨u', rfl⟩
    · rfl
    · rw [List.getLast?_concat]
      rfl
  have hv' : isWordO (t ++ v).head? = false := by
    rcases ht with rfl | rfl
    · rw [List.nil_append]
      rcases hv with rfl | ⟨v', rfl⟩
      · rfl
      · rw [List.head?_cons]
        rfl
    · rw [List.cons_append, List.head?_cons]
      rfl
  rw [hs2]
  exact isMatch_embed re (stripCR raw) u (t ++ v) hu' hv' hm

set_option maxRecDepth 10000 in
theorem c1_counterexample_memmem_drops_result :
    search_file SearchMethod.prescanMemmem (jsRE qreFoDot) "fo.".toList "a.js"
        (some "function fob() \x7b".toList) true true
      ≠
      search_file SearchMethod.noPrescan (jsRE qreFoDot) "fo.".toList "a.js"
        (some "function fob() \x7b".toList) true true := by
  decide

/-- C1 (amended): the `PrescanRegex` strategy and the `NoPrescan` strategy
yield identical results on every (text) file, for every pattern, query,
path, rewind outcome and line-number setting: the whole-buffer pattern
check can only reject files none of whose lines matches. -/
theorem c1_amended_regex_equals_noprescan (re : RE) (query : List Char)
    (path : String) (content : List Char) (rewindOk : Bool) (withNo : Bool) :
    search_file SearchMethod.prescanRegex re query path (some content) rewindOk
        withNo =
      search_file SearchMethod.noPrescan re query path (some content) rewindOk
        withNo := by
  have h1 : prescanSkips SearchMethod.prescanRegex re query content =
      !does_file_match_regexp content re := rfl
  have h2 : prescanSkips SearchMethod.noPrescan re query content = false := rfl
  rw [search_file, search_file, h1, h2]
  by_cases hdf : does_file_match_regexp content re = true
  · rw [hdf]
    simp only [Bool.not_true]
  · have hdf' : does_file_match_regexp content re = false :=
      Bool.eq_false_iff.mpr hdf
    rw [hdf']
    have hscan : search_file_line_by_line re path (linesOf content) withNo = [] := by
      rw [search_file_line_by_line]
      apply scanLinesFrom_eq_nil
      intro l hl
      have hcne : content ≠ [] := by
        intro h0
        rw [h0] at hl
        exact absurd hl (List.not_mem_nil l)
      cases hx : isMatch re l
      · rfl
      · have hbuf := line_match_implies_buffer_match re content l hl hx
        rw [does_file_match_regexp, if_neg (by
          intro hlen
          exact hcne (List.length_eq_zero.mp hlen)), hbuf] at hdf'
        exact absurd hdf' (by decide)
    simp only [Bool.not_false]
    rw [if_pos trivial, if_neg (show ¬(false = true) by decide)]
    cases rewindOk
    · simp only [Bool.not_false]
      rw [if_pos trivial]
    · simp only [Bool.not_true]
      rw [if_neg (show ¬(false = true) by decide), hscan]
